import Mathlib

/-
Shallow embedding of `lib/libc/picolibc/libc-hooks.c` (zephyr picolibc shim).

The heap-growth primitive `_sbrk` is:

    static LIBC_DATA SYS_SEM_DEFINE(heap_sem, 1, 1);
    LIBC_BSS static unsigned int heap_sz;

    void *_sbrk(intptr_t count)
    {
        void *ret, *ptr;
        sys_sem_take(&heap_sem, K_FOREVER);
        ptr = ((char *)HEAP_BASE) + heap_sz;
        if ((heap_sz + count) < MAX_HEAP_SIZE) {
            heap_sz += count;
            ret = ptr;
        } else {
            ret = (void *)-1;
        }
        sys_sem_give(&heap_sem);
        return ret;
    }

We model the common ILP32 configuration, where `unsigned int`, `size_t` and
`uintptr_t` are all 32 bits wide: addresses and sizes are natural numbers
below 2^32, and `heap_sz + count` follows C's usual arithmetic conversions,
i.e. the signed `count` is converted to unsigned and the sum wraps modulo
2^32 before the (unsigned) comparison with `MAX_HEAP_SIZE`.  `heap_sz` sits
in BSS, so it starts at 0.
-/

/-- Number of values of a 32-bit machine word, 2 ^ 32. -/
def wordMod : Nat := 4294967296

/-- State of the heap region: `HEAP_BASE` (address), `MAX_HEAP_SIZE`
(capacity in bytes) and the current high-water mark `heap_sz`. -/
structure HeapRegion where
  heap_base : Nat
  max_heap_size : Nat
  heap_sz : Nat
deriving DecidableEq

/-- Conversion of the signed `intptr_t count` to an unsigned 32-bit value,
as C's usual arithmetic conversions perform in `heap_sz + count`. -/
def toUnsigned (count : Int) : Nat := (count % (wordMod : Int)).toNat

/-- Branch condition of `_sbrk`: `(heap_sz + count) < MAX_HEAP_SIZE`,
computed in unsigned 32-bit arithmetic. -/
def sbrk_ok (st : HeapRegion) (count : Int) : Bool :=
  decide ((st.heap_sz + toUnsigned count) % wordMod < st.max_heap_size)

/-- One call of `_sbrk`: computes `ptr = HEAP_BASE + heap_sz` before any
mutation, then either advances `heap_sz` and returns `ptr`, or returns the
all-bits-set failure pointer `(void *)-1` leaving the state unchanged.
The first component is the returned pointer (an address below 2^32), the
second the heap state after the call. -/
def sbrk (st : HeapRegion) (count : Int) : Nat × HeapRegion :=
  let ptr := (st.heap_base + st.heap_sz) % wordMod
  if sbrk_ok st count then
    (ptr, ⟨st.heap_base, st.max_heap_size, (st.heap_sz + toUnsigned count) % wordMod⟩)
  else
    (wordMod - 1, st)

/-- Serial run of `_sbrk` over a list of requests, collecting the pairs
(returned pointer, requested delta) of the successful calls and stopping at
the first exhaustion failure. -/
def sbrkRun (st : HeapRegion) : List Int → List (Nat × Int)
  | [] => []
  | d :: ds =>
    if sbrk_ok st d then ((sbrk st d).1, d) :: sbrkRun (sbrk st d).2 ds
    else []

/-- Serial run of `_sbrk` over a list of requests, keeping only the final
heap state (failed calls leave the state unchanged and the run continues). -/
def sbrkRunState (st : HeapRegion) : List Int → HeapRegion
  | [] => st
  | d :: ds => sbrkRunState (sbrk st d).2 ds

lemma sbrk_ok_iff (st : HeapRegion) (c : Int) :
    sbrk_ok st c = true ↔ (st.heap_sz + toUnsigned c) % wordMod < st.max_heap_size := by
  simp [sbrk_ok]

lemma sbrk_of_ok {st : HeapRegion} {c : Int} (h : sbrk_ok st c = true) :
    sbrk st c = ((st.heap_base + st.heap_sz) % wordMod,
      ⟨st.heap_base, st.max_heap_size, (st.heap_sz + toUnsigned c) % wordMod⟩) := by
  simp [sbrk, h]

lemma sbrk_of_fail {st : HeapRegion} {c : Int} (h : sbrk_ok st c = false) :
    sbrk st c = (wordMod - 1, st) := by
  simp [sbrk, h]

lemma toUnsigned_mod_eq (h : Nat) (c : Int) (k : Nat)
    (hsum : (h : Int) + c = (k : Int)) (hk : k < wordMod) :
    (h + toUnsigned c) % wordMod = k := by
  simp only [toUnsigned, wordMod] at hk ⊢
  omega

/-- C1 (amended): the boundary check of `_sbrk` is strict-less-than against
the capacity.  For every state whose capacity is a machine-representable
size and every request with `mark + delta == capacity` exactly, the call
fails; for every request with `0 <= mark + delta < capacity` the call
succeeds and leaves `mark = old mark + delta`.  (The claim's original
unrestricted success direction is false when `mark + delta` is negative:
the unsigned sum wraps and the call fails; see the counterexample.) -/
theorem sbrk_boundary_strict (st : HeapRegion) (d : Int)
    (hcap : st.max_heap_size < wordMod) :
    (((st.heap_sz : Int) + d = (st.max_heap_size : Int)) → sbrk_ok st d = false) ∧
    ((0 ≤ (st.heap_sz : Int) + d ∧ (st.heap_sz : Int) + d < (st.max_heap_size : Int)) →
      sbrk_ok st d = true ∧ ((sbrk st d).2.heap_sz : Int) = (st.heap_sz : Int) + d) := by
  constructor
  · intro he
    have hmod : (st.heap_sz + toUnsigned d) % wordMod = st.max_heap_size :=
      toUnsigned_mod_eq _ _ _ he hcap
    simp [sbrk_ok, hmod]
  · rintro ⟨h0, hlt⟩
    obtain ⟨k, hsum⟩ : ∃ k : Nat, (st.heap_sz : Int) + d = (k : Int) :=
      ⟨((st.heap_sz : Int) + d).toNat, by omega⟩
    have hkcap : k < st.max_heap_size := by omega
    have hmod : (st.heap_sz + toUnsigned d) % wordMod = k :=
      toUnsigned_mod_eq _ _ _ hsum (by omega)
    have hok : sbrk_ok st d = true := by
      simp [sbrk_ok, hmod, hkcap]
    refine ⟨hok, ?_⟩
    rw [sbrk_of_ok hok]
    simp [hmod]
    omega

/-- C1 witness: the spec's concrete scenario, `capacity = 100`, `mark = 60`:
`grow(40)` fails while `grow(39)` succeeds leaving `mark = 99`. -/
theorem sbrk_boundary_strict_witness :
    sbrk_ok ⟨0, 100, 60⟩ 40 = false ∧
    (sbrk_ok ⟨0, 100, 60⟩ 39 = true ∧
      ((sbrk ⟨0, 100, 60⟩ 39).2.heap_sz : Int) = 99) := by
  refine ⟨(sbrk_boundary_strict ⟨0, 100, 60⟩ 40 (by decide)).1 (by decide), ?_⟩
  have h := (sbrk_boundary_strict ⟨0, 100, 60⟩ 39 (by decide)).2 (by decide)
  exact ⟨h.1, by rw [h.2]; decide⟩

/-- C1 counterexample: a reachable state (`mark = 10` after `grow(10)` from a
fresh region of capacity 100) and the admissible request `delta = -20`
satisfy `mark + delta < capacity`, yet the call fails: the unsigned sum
`heap_sz + count` wraps below zero and the strict check rejects it. -/
theorem sbrk_boundary_neg_delta_cex :
    (((sbrkRunState ⟨0, 100, 0⟩ [10]).heap_sz : Int) + (-20) < ((100 : Nat) : Int)) ∧
    sbrk_ok (sbrkRunState ⟨0, 100, 0⟩ [10]) (-20) = false := by decide

/-- C2 (amended): on every successful call whose pointer arithmetic and mark
update stay in machine range (`base + mark < 2^32` and
`0 <= mark + delta < 2^32`), `_sbrk` returns `base + mark` computed from the
mark before the mutation, and the new mark is the old mark plus delta.
(Unrestricted, the new mark is `(old mark + delta) mod 2^32`: a negative
delta can make a successful call wrap, see the counterexample.) -/
theorem sbrk_success_ret_and_advance (st : HeapRegion) (d : Int)
    (hok : sbrk_ok st d = true)
    (hptr : st.heap_base + st.heap_sz < wordMod)
    (h0 : 0 ≤ (st.heap_sz : Int) + d)
    (hW : (st.heap_sz : Int) + d < (wordMod : Int)) :
    (sbrk st d).1 = st.heap_base + st.heap_sz ∧
    ((sbrk st d).2.heap_sz : Int) = (st.heap_sz : Int) + d := by
  rw [sbrk_of_ok hok]
  constructor
  · exact Nat.mod_eq_of_lt hptr
  · obtain ⟨k, hsum⟩ : ∃ k : Nat, (st.heap_sz : Int) + d = (k : Int) :=
      ⟨((st.heap_sz : Int) + d).toNat, by omega⟩
    have hmod : (st.heap_sz + toUnsigned d) % wordMod = k :=
      toUnsigned_mod_eq _ _ _ hsum (by omega)
    simp [hmod]
    omega

/-- C2 witness: with `base = 0`, `capacity = 100`, `mark = 60`, the call
`grow(39)` returns pointer 60 and sets the mark to 99. -/
theorem sbrk_success_ret_and_advance_witness :
    (sbrk ⟨0, 100, 60⟩ 39).1 = 0 + 60 ∧
    ((sbrk ⟨0, 100, 60⟩ 39).2.heap_sz : Int) = 99 := by
  have h := sbrk_success_ret_and_advance ⟨0, 100, 60⟩ 39
    (by decide) (by decide) (by decide) (by decide)
  exact ⟨h.1, by rw [h.2]; decide⟩

/-- C2 counterexample: with `capacity = 2^31 + 1`, `mark = 0` and the
admissible `delta = -2^31` (INTPTR_MIN), the call succeeds — the unsigned
conversion turns the delta into `2^31`, which passes the strict check — but
the new mark is `2^31`, not `old mark + delta = -2^31`. -/
theorem sbrk_success_advance_wrap_cex :
    sbrk_ok ⟨0, 2147483649, 0⟩ (-2147483648) = true ∧
    ¬ (((sbrk ⟨0, 2147483649, 0⟩ (-2147483648)).2.heap_sz : Int)
        = (((⟨0, 2147483649, 0⟩ : HeapRegion).heap_sz : Int) + (-2147483648))) := by decide

/-- C3: on every exhaustion failure `_sbrk` returns the all-bits-set pointer
`(void *)-1` (the address `2^32 - 1`) and leaves the whole state unchanged,
so a subsequent `grow(0)` returns the same value as it would have before the
failed call. -/
theorem sbrk_failure_sentinel_unchanged (st : HeapRegion) (d : Int)
    (h : sbrk_ok st d = false) :
    (sbrk st d).1 = wordMod - 1 ∧ (sbrk st d).2 = st ∧
    (sbrk (sbrk st d).2 0).1 = (sbrk st 0).1 := by
  rw [sbrk_of_fail h]
  exact ⟨rfl, rfl, rfl⟩

/-- C3 witness: at `capacity = 100`, `mark = 60`, the failing `grow(40)`
returns the sentinel and changes nothing. -/
theorem sbrk_failure_sentinel_unchanged_witness :
    (sbrk ⟨0, 100, 60⟩ 40).1 = wordMod - 1 ∧ (sbrk ⟨0, 100, 60⟩ 40).2 = ⟨0, 100, 60⟩ ∧
    (sbrk (sbrk ⟨0, 100, 60⟩ 40).2 0).1 = (sbrk ⟨0, 100, 60⟩ 40 |>.2 |> (sbrk · 0)).1 :=
  by
  have h := sbrk_failure_sentinel_unchanged ⟨0, 100, 60⟩ 40 (by decide)
  exact ⟨h.1, h.2.1, rfl⟩

lemma sbrk_base_capacity (st : HeapRegion) (d : Int) :
    (sbrk st d).2.heap_base = st.heap_base ∧
    (sbrk st d).2.max_heap_size = st.max_heap_size := by
  cases h : sbrk_ok st d with
  | false => rw [sbrk_of_fail h]; exact ⟨rfl, rfl⟩
  | true => rw [sbrk_of_ok h]; exact ⟨rfl, rfl⟩

lemma sbrk_preserves_le {st : HeapRegion} (d : Int)
    (hle : st.heap_sz ≤ st.max_heap_size) :
    (sbrk st d).2.heap_sz ≤ st.max_heap_size := by
  cases h : sbrk_ok st d with
  | false => rw [sbrk_of_fail h]; exact hle
  | true =>
    rw [sbrk_of_ok h]
    exact Nat.le_of_lt ((sbrk_ok_iff st d).1 h)

lemma sbrk_preserves_lt {st : HeapRegion} (d : Int)
    (hlt : st.heap_sz < st.max_heap_size) :
    (sbrk st d).2.heap_sz < st.max_heap_size := by
  cases h : sbrk_ok st d with
  | false => rw [sbrk_of_fail h]; exact hlt
  | true =>
    rw [sbrk_of_ok h]
    exact (sbrk_ok_iff st d).1 h

lemma sbrkRunState_base_capacity (ds : List Int) (st : HeapRegion) :
    (sbrkRunState st ds).heap_base = st.heap_base ∧
    (sbrkRunState st ds).max_heap_size = st.max_heap_size := by
  induction ds generalizing st with
  | nil => exact ⟨rfl, rfl⟩
  | cons d ds ih =>
    have h1 := sbrk_base_capacity st d
    have h2 := ih (sbrk st d).2
    exact ⟨h2.1.trans h1.1, h2.2.trans h1.2⟩

lemma sbrkRunState_le (ds : List Int) (st : HeapRegion)
    (h : st.heap_sz ≤ st.max_heap_size) :
    (sbrkRunState st ds).heap_sz ≤ st.max_heap_size := by
  induction ds generalizing st with
  | nil => exact h
  | cons d ds ih =>
    have hc := (sbrk_base_capacity st d).2
    have h1 : (sbrk st d).2.heap_sz ≤ (sbrk st d).2.max_heap_size := by
      rw [hc]; exact sbrk_preserves_le d h
    have h2 := ih (sbrk st d).2 h1
    rw [hc] at h2
    exact h2

lemma sbrkRunState_lt (ds : List Int) (st : HeapRegion)
    (h : st.heap_sz < st.max_heap_size) :
    (sbrkRunState st ds).heap_sz < st.max_heap_size := by
  induction ds generalizing st with
  | nil => exact h
  | cons d ds ih =>
    have hc := (sbrk_base_capacity st d).2
    have h1 : (sbrk st d).2.heap_sz < (sbrk st d).2.max_heap_size := by
      rw [hc]; exact sbrk_preserves_lt d h
    have h2 := ih (sbrk st d).2 h1
    rw [hc] at h2
    exact h2

/-- C4: for every state with `mark <= capacity` and every signed delta
(including negative shrink requests), the invariant `0 <= mark <= capacity`
still holds after the call — the stored mark is exactly the value the strict
check admitted — and `base` and `capacity` are never changed by `_sbrk`.
Moreover the invariant holds along every serial run from the initial state
(`heap_sz` starts at 0 in BSS). -/
theorem sbrk_invariant_mark_le_capacity (st : HeapRegion) (d : Int)
    (base cap : Nat) (ds : List Int)
    (hle : st.heap_sz ≤ st.max_heap_size) :
    ((sbrk st d).2.heap_sz ≤ st.max_heap_size ∧
     (sbrk st d).2.heap_base = st.heap_base ∧
     (sbrk st d).2.max_heap_size = st.max_heap_size) ∧
    (sbrkRunState ⟨base, cap, 0⟩ ds).heap_sz ≤ cap := by
  refine ⟨⟨sbrk_preserves_le d hle, sbrk_base_capacity st d⟩, ?_⟩
  exact sbrkRunState_le ds ⟨base, cap, 0⟩ (Nat.zero_le _)

/-- C4 witness: the invariant is preserved across the failing `grow(40)` at
`capacity = 100`, `mark = 60`, and along the run `[60, 39, 5]` from fresh. -/
theorem sbrk_invariant_mark_le_capacity_witness :
    ((sbrk ⟨0, 100, 60⟩ 40).2.heap_sz ≤ 100 ∧
     (sbrk ⟨0, 100, 60⟩ 40).2.heap_base = 0 ∧
     (sbrk ⟨0, 100, 60⟩ 40).2.max_heap_size = 100) ∧
    (sbrkRunState ⟨0, 100, 0⟩ [60, 39, 5]).heap_sz ≤ 100 :=
  sbrk_invariant_mark_le_capacity ⟨0, 100, 60⟩ 40 0 100 [60, 39, 5] (by decide)

/-- C6: `grow(0)` succeeds whenever `mark < capacity` (for a region whose
capacity and extent are machine-representable), returning the address
`base + mark` and leaving the state entirely unchanged; and when
`mark == capacity`, the same strict-less-than check makes `grow(0)` fail. -/
theorem sbrk_zero_delta (st : HeapRegion)
    (hcap : st.max_heap_size < wordMod)
    (hfit : st.heap_base + st.max_heap_size ≤ wordMod) :
    (st.heap_sz < st.max_heap_size →
      sbrk st 0 = (st.heap_base + st.heap_sz, st)) ∧
    (st.heap_sz = st.max_heap_size → sbrk_ok st 0 = false) := by
  have hz : toUnsigned 0 = 0 := by decide
  constructor
  · intro hlt
    have hmod : (st.heap_sz + toUnsigned 0) % wordMod = st.heap_sz := by
      rw [hz]
      exact Nat.mod_eq_of_lt (by omega)
    have hok : sbrk_ok st 0 = true := by
      simp [sbrk_ok, hmod, hlt]
    rw [sbrk_of_ok hok, hmod, Nat.mod_eq_of_lt (by omega)]
  · intro heq
    have hmod : (st.heap_sz + toUnsigned 0) % wordMod = st.max_heap_size := by
      rw [hz, heq]
      exact Nat.mod_eq_of_lt (by omega)
    simp [sbrk_ok, hmod]

/-- C6 witness: `grow(0)` at `mark = 60 < capacity = 100` returns 60 and
changes nothing; `grow(0)` at `mark = capacity = 100` fails. -/
theorem sbrk_zero_delta_witness :
    sbrk ⟨0, 100, 60⟩ 0 = (0 + 60, ⟨0, 100, 60⟩) ∧
    sbrk_ok ⟨0, 100, 100⟩ 0 = false :=
  ⟨(sbrk_zero_delta ⟨0, 100, 60⟩ (by decide) (by decide)).1 (by decide),
   (sbrk_zero_delta ⟨0, 100, 100⟩ (by decide) (by decide)).2 (by decide)⟩

/-- C7 (amended): the mark starts at 0 (BSS) and never decreases across any
call with a non-negative delta whose sum stays in machine range:
`mark' >= mark` whenever `0 <= delta` and `mark + delta < 2^32`.  (The
claim's unrestricted form is false: the interface admits negative deltas,
and a successful shrink request decreases the mark — see the
counterexample.) -/
theorem sbrk_mark_monotone (st : HeapRegion) (d : Int)
    (h0 : 0 ≤ d) (hW : (st.heap_sz : Int) + d < (wordMod : Int)) :
    st.heap_sz ≤ (sbrk st d).2.heap_sz := by
  cases h : sbrk_ok st d with
  | false => rw [sbrk_of_fail h]
  | true =>
    rw [sbrk_of_ok h]
    obtain ⟨k, hsum⟩ : ∃ k : Nat, (st.heap_sz : Int) + d = (k : Int) :=
      ⟨((st.heap_sz : Int) + d).toNat, by omega⟩
    have hmod : (st.heap_sz + toUnsigned d) % wordMod = k :=
      toUnsigned_mod_eq _ _ _ hsum (by omega)
    simp [hmod]
    omega

/-- C7 witness: `grow(39)` at `mark = 60` does not decrease the mark. -/
theorem sbrk_mark_monotone_witness :
    (⟨0, 100, 60⟩ : HeapRegion).heap_sz ≤ (sbrk ⟨0, 100, 60⟩ 39).2.heap_sz :=
  sbrk_mark_monotone ⟨0, 100, 60⟩ 39 (by decide) (by decide)

/-- C7 counterexample: at `capacity = 100`, `mark = 10`, the shrink request
`grow(-5)` succeeds and the mark decreases to 5 — the mark does not "only
ever increase" over all calls the interface admits. -/
theorem sbrk_mark_monotone_cex :
    sbrk_ok ⟨0, 100, 10⟩ (-5) = true ∧
    (sbrk ⟨0, 100, 10⟩ (-5)).2.heap_sz < (⟨0, 100, 10⟩ : HeapRegion).heap_sz := by decide

/-- C9: because the bounds check is strict, every successful call leaves
`mark` strictly below `capacity`; consequently, from the fresh state
(`mark = 0`) of a region with positive capacity, no sequence of calls can
reach `mark == capacity`, so the last byte of the region is never handed
out. -/
theorem sbrk_capacity_unreachable (st : HeapRegion) (d : Int)
    (base cap : Nat) (ds : List Int)
    (hok : sbrk_ok st d = true) (hcap : 0 < cap) :
    (sbrk st d).2.heap_sz < st.max_heap_size ∧
    (sbrkRunState ⟨base, cap, 0⟩ ds).heap_sz < cap ∧
    (sbrkRunState ⟨base, cap, 0⟩ ds).heap_sz ≠ cap := by
  have h1 : (sbrk st d).2.heap_sz < st.max_heap_size := by
    rw [sbrk_of_ok hok]
    exact (sbrk_ok_iff st d).1 hok
  have h2 := sbrkRunState_lt ds ⟨base, cap, 0⟩ hcap
  exact ⟨h1, h2, Nat.ne_of_lt h2⟩

/-- C9 witness: the successful `grow(39)` at `mark = 60`, `capacity = 100`
leaves the mark below 100, and the run `[60, 39, 40, 5]` from fresh never
reaches `mark = 100`. -/
theorem sbrk_capacity_unreachable_witness :
    (sbrk ⟨0, 100, 60⟩ 39).2.heap_sz < 100 ∧
    (sbrkRunState ⟨0, 100, 0⟩ [60, 39, 40, 5]).heap_sz < 100 ∧
    (sbrkRunState ⟨0, 100, 0⟩ [60, 39, 40, 5]).heap_sz ≠ 100 :=
  sbrk_capacity_unreachable ⟨0, 100, 60⟩ 39 0 100 [60, 39, 40, 5]
    (by decide) (by decide)

/-- Well-formed heap region for the run lemmas: the mark respects the
capacity, the capacity fits a `size_t` no larger than 2^31 (so that no sum
`heap_sz + count` with an `intptr_t`-ranged positive count can wrap), and
the whole region `[base, base + capacity)` lies inside the address space. -/
def regionWF (st : HeapRegion) : Prop :=
  st.heap_sz ≤ st.max_heap_size ∧ st.max_heap_size ≤ 2147483648 ∧
  st.heap_base + st.max_heap_size ≤ wordMod

lemma sbrk_ok_small {st : HeapRegion} {d : Int} (hwf : regionWF st)
    (hd : 0 < d ∧ d < 2147483648) :
    sbrk_ok st d = true ↔ st.heap_sz + d.toNat < st.max_heap_size := by
  obtain ⟨h1, h2, h3⟩ := hwf
  simp only [sbrk_ok, toUnsigned, wordMod, decide_eq_true_eq]
  omega

lemma sbrk_small_success {st : HeapRegion} {d : Int} (hwf : regionWF st)
    (hd : 0 < d ∧ d < 2147483648) (hok : sbrk_ok st d = true) :
    (sbrk st d).1 = st.heap_base + st.heap_sz ∧
    (sbrk st d).2 = ⟨st.heap_base, st.max_heap_size, st.heap_sz + d.toNat⟩ := by
  have hlt := (sbrk_ok_small hwf hd).1 hok
  obtain ⟨h1, h2, h3⟩ := hwf
  rw [sbrk_of_ok hok]
  have hmod : (st.heap_sz + toUnsigned d) % wordMod = st.heap_sz + d.toNat := by
    simp only [toUnsigned, wordMod]
    omega
  constructor
  · exact Nat.mod_eq_of_lt (by omega)
  · rw [hmod]

lemma sbrkRun_chain (ds : List Int) (st : HeapRegion) (hwf : regionWF st)
    (hds : ∀ d ∈ ds, 0 < d ∧ d < 2147483648) :
    List.Pairwise (fun a b => a.1 < b.1 ∧ a.1 + a.2.toNat ≤ b.1) (sbrkRun st ds) ∧
    ∀ x ∈ sbrkRun st ds,
      st.heap_base + st.heap_sz ≤ x.1 ∧
      x.1 + x.2.toNat ≤ st.heap_base + st.max_heap_size := by
  induction ds generalizing st with
  | nil => simp [sbrkRun]
  | cons d ds ih =>
    have hd := hds d (List.mem_cons_self d ds)
    cases hok : sbrk_ok st d with
    | false => simp [sbrkRun, hok]
    | true =>
      obtain ⟨hret, hst⟩ := sbrk_small_success hwf hd hok
      have hlt := (sbrk_ok_small hwf hd).1 hok
      have hwf' : regionWF (sbrk st d).2 := by
        rw [hst]
        exact ⟨Nat.le_of_lt hlt, hwf.2.1, hwf.2.2⟩
      obtain ⟨ihp, ihb⟩ := ih (sbrk st d).2 hwf'
        (fun x hx => hds x (List.mem_cons_of_mem d hx))
      have hbnd : ∀ x ∈ sbrkRun (sbrk st d).2 ds,
          st.heap_base + (st.heap_sz + d.toNat) ≤ x.1 ∧
          x.1 + x.2.toNat ≤ st.heap_base + st.max_heap_size := by
        intro x hx
        have hb := ihb x hx
        rw [hst] at hb
        exact hb
      simp only [sbrkRun, hok, if_true]
      constructor
      · refine List.Pairwise.cons ?_ ihp
        intro x hx
        have hb := hbnd x hx
        rw [hret]
        have hpos : 1 ≤ d.toNat := by omega
        exact ⟨by omega, by omega⟩
      · intro x hx
        rcases List.mem_cons.1 hx with hx | hx
        · rw [hx, hret]
          refine ⟨Nat.le_refl _, ?_⟩
          have : st.heap_sz + d.toNat < st.max_heap_size := hlt
          omega
        · have hb := hbnd x hx
          exact ⟨by omega, hb.2⟩

/-- C5 (amended): against a fresh region whose capacity is at most 2^31 and
fits the address space, every serial sequence of positive `intptr_t`-ranged
deltas yields — until exhaustion — strictly increasing pointers whose
half-open ranges `[ptr, ptr + delta)` are pairwise non-overlapping
sub-ranges of `[base, base + capacity)`.  (The claim's original form over
all non-negative deltas is false — repeated `grow(0)` returns the same
pointer twice — and without the capacity bound the unchecked 32-bit
wraparound of `heap_sz + count` can produce overlapping ranges; see the
counterexample.) -/
theorem sbrk_run_disjoint_increasing (base cap : Nat) (ds : List Int)
    (hcap : cap ≤ 2147483648) (hfit : base + cap ≤ wordMod)
    (hds : ∀ d ∈ ds, 0 < d ∧ d < 2147483648) :
    List.Pairwise (fun a b => a.1 < b.1 ∧ a.1 + a.2.toNat ≤ b.1)
      (sbrkRun ⟨base, cap, 0⟩ ds) ∧
    ∀ x ∈ sbrkRun ⟨base, cap, 0⟩ ds,
      base ≤ x.1 ∧ x.1 + x.2.toNat ≤ base + cap := by
  have h := sbrkRun_chain ds ⟨base, cap, 0⟩ ⟨Nat.zero_le _, hcap, hfit⟩ hds
  refine ⟨h.1, fun x hx => ?_⟩
  have hb := h.2 x hx
  dsimp only at hb
  exact ⟨by omega, hb.2⟩

/-- C5 witness: the run `[10, 20, 30]` from a fresh region of capacity 100
produces increasing, pairwise disjoint ranges inside the region. -/
theorem sbrk_run_disjoint_increasing_witness :
    List.Pairwise (fun a b => a.1 < b.1 ∧ a.1 + a.2.toNat ≤ b.1)
      (sbrkRun ⟨0, 100, 0⟩ [10, 20, 30]) ∧
    ∀ x ∈ sbrkRun ⟨0, 100, 0⟩ [10, 20, 30],
      0 ≤ x.1 ∧ x.1 + x.2.toNat ≤ 0 + 100 :=
  sbrk_run_disjoint_increasing 0 100 [10, 20, 30] (by decide) (by decide) (by decide)

/-- C5 counterexample: the claim as stated fails twice.  With the
non-negative deltas `[0, 0]` from a fresh region the two successful calls
return the same pointer, so the pointers are not strictly increasing.  And
with `capacity = 2^32 - 1` the run `[2^31 - 1, 2^31 - 1, 3, 5]` of positive
deltas makes `heap_sz + count` wrap past 2^32: the third call hands out a
range reaching past `base + capacity` (and the fourth re-issues addresses
already handed out). -/
theorem sbrk_run_nonneg_cex :
    (¬ List.Pairwise (fun a b => a.1 < b.1) (sbrkRun ⟨0, 10, 0⟩ [0, 0])) ∧
    (¬ ∀ x ∈ sbrkRun ⟨0, 4294967295, 0⟩ [2147483647, 2147483647, 3, 5],
        x.1 + x.2.toNat ≤ 0 + 4294967295) := by decide

/-- Primitive events of one `_sbrk` call, in program order: the semaphore
operations on `heap_sem` and the accesses to the shared variable
`heap_sz`. -/
inductive SbrkEvent where
  | semTake
  | readMark
  | writeMark
  | semGive
deriving DecidableEq

/-- Event trace of one `_sbrk` call, following the body line by line:
`sys_sem_take(&heap_sem, K_FOREVER)`; the read of `heap_sz` computing
`ptr`; the read of `heap_sz` in the comparison; on the success branch the
read-modify-write `heap_sz += count`; and on both branches the final
`sys_sem_give(&heap_sem)` before returning. -/
def sbrkEvents (st : HeapRegion) (count : Int) : List SbrkEvent :=
  [SbrkEvent.semTake, SbrkEvent.readMark, SbrkEvent.readMark] ++
  (if sbrk_ok st count then [SbrkEvent.readMark, SbrkEvent.writeMark] else []) ++
  [SbrkEvent.semGive]

/-- Scan of a trace checking that every write to `heap_sz` happens while the
semaphore is held (the running count of takes minus gives is positive). -/
def writesLocked : Nat → List SbrkEvent → Bool
  | _, [] => true
  | s, SbrkEvent.semTake :: es => writesLocked (s + 1) es
  | s, SbrkEvent.semGive :: es => writesLocked (s - 1) es
  | s, SbrkEvent.writeMark :: es => decide (0 < s) && writesLocked s es
  | s, SbrkEvent.readMark :: es => writesLocked s es

/-- Run of a trace against the counting semaphore `heap_sem` (initial count
1): `semTake` blocks — modelled as `none` — when the count is 0, and
`semGive` increments the count. -/
def semRun : Nat → List SbrkEvent → Option Nat
  | s, [] => some s
  | s, SbrkEvent.semTake :: es => if s = 0 then none else semRun (s - 1) es
  | s, SbrkEvent.semGive :: es => semRun (s + 1) es
  | s, SbrkEvent.readMark :: es => semRun s es
  | s, SbrkEvent.writeMark :: es => semRun s es

/-- C8: every `_sbrk` call takes `heap_sem` first, gives it exactly once and
as its last action — on the success path and on the exhaustion path alike —
every mutation of `heap_sz` happens while the semaphore is held, and a call
run from semaphore count 1 returns the count to 1, so any two calls in
sequence (the second from another context, after a possible failure of the
first) complete without blocking. -/
theorem sbrk_lock_discipline (st : HeapRegion) (c : Int) (st' : HeapRegion) (c' : Int) :
    (sbrkEvents st c).head? = some SbrkEvent.semTake ∧
    (sbrkEvents st c).getLast? = some SbrkEvent.semGive ∧
    (sbrkEvents st c).count SbrkEvent.semTake = 1 ∧
    (sbrkEvents st c).count SbrkEvent.semGive = 1 ∧
    writesLocked 0 (sbrkEvents st c) = true ∧
    semRun 1 (sbrkEvents st c) = some 1 ∧
    semRun 1 (sbrkEvents st c ++ sbrkEvents st' c') = some 1 := by
  cases h1 : sbrk_ok st c <;> cases h2 : sbrk_ok st' c' <;>
    simp only [sbrkEvents, h1, h2, if_true, if_false] <;> decide

/-- Loop body of `z_impl_zephyr_write_stdout`: walks the buffer in order,
and for each byte emits a carriage return first when the byte is a newline,
then the byte itself (`putchar` calls accumulate onto `out`). -/
def z_impl_zephyr_write_stdout_go : List Char → List Char → List Char
  | out, [] => out
  | out, c :: cs =>
    z_impl_zephyr_write_stdout_go (out ++ (if c = '\n' then ['\r', c] else [c])) cs

/-- Model of `z_impl_zephyr_write_stdout`: the buffer is the list of the
`nbytes` bytes read from `buffer`; the result is the emitted character
stream paired with the returned `int`, which the code always sets to
`nbytes`. -/
def z_impl_zephyr_write_stdout (buffer : List Char) : List Char × Int :=
  (z_impl_zephyr_write_stdout_go [] buffer, (buffer.length : Int))

/-- Terminator test of the `z_impl_zephyr_read_stdin` loop:
`(*(buf + i) == '\n') || (*(buf + i) == '\r')`. -/
def isEol (c : Char) : Bool := c = '\n' || c = '\r'

/-- Loop of `z_impl_zephyr_read_stdin`: at index `i < nbytes` it stores the
next `getchar()` result (`input i` is the i-th character delivered by the
blocking stdin hook) into the buffer; on a newline or carriage return it
increments `i` once more and breaks; otherwise it continues; it returns the
filled buffer and the final `i`. -/
def z_impl_zephyr_read_stdin_go (input : Nat → Char) (nbytes i : Nat)
    (buf : List Char) : List Char × Nat :=
  if _h : i < nbytes then
    if isEol (input i) then (buf ++ [input i], i + 1)
    else z_impl_zephyr_read_stdin_go input nbytes (i + 1) (buf ++ [input i])
  else (buf, i)
termination_by nbytes - i

/-- Model of `z_impl_zephyr_read_stdin`: runs the loop from `i = 0` with an
empty buffer. -/
def z_impl_zephyr_read_stdin (input : Nat → Char) (nbytes : Nat) : List Char × Nat :=
  z_impl_zephyr_read_stdin_go input nbytes 0 []

lemma write_stdout_go_eq (buffer : List Char) : ∀ out : List Char,
    z_impl_zephyr_write_stdout_go out buffer =
      out ++ (buffer.map (fun c => if c = '\n' then ['\r', c] else [c])).flatten := by
  induction buffer with
  | nil => intro out; simp [z_impl_zephyr_write_stdout_go]
  | cons c cs ih =>
    intro out
    simp [z_impl_zephyr_write_stdout_go, ih]

lemma read_stdin_go_spec (input : Nat → Char) (nbytes : Nat) : ∀ k i buf,
    nbytes - i = k → i ≤ nbytes →
    i ≤ (z_impl_zephyr_read_stdin_go input nbytes i buf).2 ∧
    (z_impl_zephyr_read_stdin_go input nbytes i buf).2 ≤ nbytes ∧
    (z_impl_zephyr_read_stdin_go input nbytes i buf).1 =
      buf ++ (List.range' i ((z_impl_zephyr_read_stdin_go input nbytes i buf).2 - i)).map input ∧
    (∀ j, i ≤ j → j + 1 < (z_impl_zephyr_read_stdin_go input nbytes i buf).2 →
      isEol (input j) = false) ∧
    ((z_impl_zephyr_read_stdin_go input nbytes i buf).2 < nbytes →
      i < (z_impl_zephyr_read_stdin_go input nbytes i buf).2 ∧
      isEol (input ((z_impl_zephyr_read_stdin_go input nbytes i buf).2 - 1)) = true) := by
  intro k
  induction k with
  | zero =>
    intro i buf hk hle
    have hi : ¬ i < nbytes := by omega
    rw [z_impl_zephyr_read_stdin_go, dif_neg hi]
    refine ⟨Nat.le_refl _, hle, ?_, ?_, ?_⟩
    · simp
    · intro j hij hj; omega
    · intro hlt; omega
  | succ k ih =>
    intro i buf hk hle
    have hi : i < nbytes := by omega
    rw [z_impl_zephyr_read_stdin_go, dif_pos hi]
    cases heol : isEol (input i) with
    | true =>
      simp only [if_true]
      refine ⟨by omega, by omega, ?_, ?_, ?_⟩
      · have h1 : i + 1 - i = 1 := by omega
        rw [h1]
        simp
      · intro j hij hj; omega
      · intro hlt
        exact ⟨by omega, by simpa using heol⟩
    | false =>
      simp only [Bool.false_eq_true, if_false]
      obtain ⟨ha, hb, hc, hd, he⟩ :=
        ih (i + 1) (buf ++ [input i]) (by omega) (by omega)
      refine ⟨by omega, hb, ?_, ?_, ?_⟩
      · rw [hc]
        have h1 : (z_impl_zephyr_read_stdin_go input nbytes (i + 1) (buf ++ [input i])).2 - i =
            ((z_impl_zephyr_read_stdin_go input nbytes (i + 1) (buf ++ [input i])).2 - (i + 1)) + 1 := by
          omega
        rw [h1, List.range'_succ]
        simp
      · intro j hij hj
        rcases Nat.eq_or_lt_of_le hij with hji | hji
        · rw [← hji]; exact heol
        · exact hd j hji hj
      · intro hlt
        have := he hlt
        exact ⟨by omega, this.2⟩

/-- C10: for every buffer and non-negative byte count,
`z_impl_zephyr_write_stdout` returns exactly `nbytes` and its emitted
stream is the buffer with a carriage return inserted immediately before
each newline byte; and `z_impl_zephyr_read_stdin` returns a count `i` with
`0 <= i <= nbytes`, its buffer holds exactly the first `i` characters read,
no terminator occurs before the last character read, and whenever it stops
early the last character read is the included newline or carriage-return
terminator. -/
theorem stdio_read_write_spec :
    (∀ buffer : List Char,
      (z_impl_zephyr_write_stdout buffer).2 = (buffer.length : Int) ∧
      (z_impl_zephyr_write_stdout buffer).1 =
        (buffer.map (fun c => if c = '\n' then ['\r', c] else [c])).flatten) ∧
    (∀ (input : Nat → Char) (nbytes : Nat),
      (z_impl_zephyr_read_stdin input nbytes).2 ≤ nbytes ∧
      (z_impl_zephyr_read_stdin input nbytes).1 =
        (List.range (z_impl_zephyr_read_stdin input nbytes).2).map input ∧
      (∀ j, j + 1 < (z_impl_zephyr_read_stdin input nbytes).2 → isEol (input j) = false) ∧
      ((z_impl_zephyr_read_stdin input nbytes).2 < nbytes →
        0 < (z_impl_zephyr_read_stdin input nbytes).2 ∧
        isEol (input ((z_impl_zephyr_read_stdin input nbytes).2 - 1)) = true)) := by
  constructor
  · intro buffer
    exact ⟨rfl, write_stdout_go_eq buffer []⟩
  · intro input nbytes
    obtain ⟨ha, hb, hc, hd, he⟩ :=
      read_stdin_go_spec input nbytes nbytes 0 [] (by omega) (by omega)
    refine ⟨hb, ?_, ?_, ?_⟩
    · rw [List.range_eq_range']
      simpa using hc
    · intro j hj
      exact hd j (Nat.zero_le j) hj
    · intro hlt
      exact he hlt

/-- C10 witness: writing the two-byte buffer `"a\n"` returns 2, and reading
up to 5 bytes from a stdin that delivers a newline first returns a count
within bounds. -/
theorem stdio_read_write_spec_witness :
    (z_impl_zephyr_write_stdout ['a', '\n']).2 = ((['a', '\n'] : List Char).length : Int) ∧
    (z_impl_zephyr_read_stdin (fun _ => '\n') 5).2 ≤ 5 :=
  ⟨(stdio_read_write_spec.1 ['a', '\n']).1,
   (stdio_read_write_spec.2 (fun _ => '\n') 5).1⟩
